import Mathlib

/-!
Verification of the row-to-card transformation of `transform_CSVtoANKI.py`:
field resolver (`normkey`, `pick`), matching-key normalization (`matchkey`),
row classifier (`process_row`, modelled as `classifyFields` over canonical
fields with the shuffle as an explicit permutation parameter) and the HTML
renderer (`build_front_html`, `build_back_html`).  Text is modelled as
`List Char`; Python truthiness of a string is non-emptiness.
-/

namespace CsvAnki

/-- Text, as Python strings restricted to their character sequence. -/
abbrev Str := List Char

/-- The characters Python's `str.split()` / `str.strip()` treat as whitespace
(the Unicode whitespace code points). -/
def pyIsSpace (c : Char) : Bool :=
  let n := c.toNat
  n == 0x20 || (0x9 ≤ n && n ≤ 0xd) || (0x1c ≤ n && n ≤ 0x1f) ||
  n == 0x85 || n == 0xa0 || n == 0x1680 || (0x2000 ≤ n && n ≤ 0x200a) ||
  n == 0x2028 || n == 0x2029 || n == 0x202f || n == 0x205f || n == 0x3000

/-- Python `s.strip()`: drop leading and trailing whitespace. -/
def pyStrip (s : Str) : Str := List.rdropWhile pyIsSpace (s.dropWhile pyIsSpace)

/-- Segments of `s` between characters satisfying `p`, empty segments kept:
the first segment paired with the remaining segments. -/
def splitSegs (p : Char → Bool) : Str → Str × List Str
  | [] => ([], [])
  | c :: rest =>
    let r := splitSegs p rest
    if p c then ([], r.1 :: r.2) else (c :: r.1, r.2)

/-- All segments of `s` between characters satisfying `p` (empties kept). -/
def segsOn (p : Char → Bool) (s : Str) : List Str :=
  (splitSegs p s).1 :: (splitSegs p s).2

/-- Python `s.split("|")`: all segments, empty segments kept. -/
def splitOnPipe (s : Str) : List Str := segsOn (fun c => c == '|') s

/-- Python `s.split()` (no argument): maximal runs of non-whitespace. -/
def pySplit (s : Str) : List Str := (segsOn pyIsSpace s).filter (fun w => !w.isEmpty)

/-- Python `" ".join(ws)`. -/
def joinSpace (ws : List Str) : Str := List.intercalate [' '] ws

/-- `normalize` of the source: `None` becomes `""`, a string is stripped. -/
def pyNormalize : Option Str → Str
  | none => []
  | some s => pyStrip s

/-- `normkey` of the source: strip, lowercase, remove byte-order marks,
underscores to spaces, collapse whitespace runs. -/
def normkey (k : Str) : Str :=
  let k1 := (pyStrip k).map Char.toLower
  let k2 := k1.filter (fun c => !(c == '\uFEFF'))
  let k3 := k2.map (fun c => if c == '_' then ' ' else c)
  joinSpace (pySplit k3)

/-- `matchkey` of the source: strip, non-breaking space to space, collapse
whitespace runs. -/
def matchkey (s : Str) : Str :=
  let s1 := pyStrip s
  let s2 := s1.map (fun c => if c == '\u00A0' then ' ' else c)
  joinSpace (pySplit s2)

/-- A parsed CSV row: headers paired with values, in column order.  A Python
dict has distinct keys; theorems that need this take it as a hypothesis. -/
abbrev Row := List (Str × Str)

/-- Python `row.get(k)` on a dict with the rows' insertion order. -/
def rowGet (row : Row) (k : Str) : Option Str :=
  (row.find? (fun p => p.1 == k)).map Prod.snd

/-- Lookup in `{normkey(k): k for k in row.keys()}`: a dict comprehension is
last-wins, so the headers are searched from the back. -/
def normMapGet (row : Row) (nk : Str) : Option Str :=
  (row.reverse.find? (fun p => normkey p.1 == nk)).map Prod.fst

/-- `pick` of the source: first candidate whose `normkey` is a key of the
normalized-header map wins; its mapped header's value is returned. -/
def pick (row : Row) : List Str → Option Str
  | [] => none
  | w :: ws =>
    match normMapGet row (normkey w) with
    | some actual => rowGet row actual
    | none => pick row ws

/-- Python `html.escape` (default `quote=True`), character by character: the
sequential replaces of CPython's implementation never rewrite an inserted
entity, so they equal this single pass. -/
def escapeChar (c : Char) : Str :=
  if c == '&' then ("&amp;").data
  else if c == '<' then ("&lt;").data
  else if c == '>' then ("&gt;").data
  else if c == '"' then ("&quot;").data
  else if c == '\'' then ("&#x27;").data
  else [c]

/-- `html.escape(s)`. -/
def htmlEscape (s : Str) : Str := s.flatMap escapeChar

/-- One character of `.replace("\n", "<br>")`. -/
def brChar (c : Char) : Str := if c == '\n' then ("<br>").data else [c]

/-- `.replace("\n", "<br>")` (the source also writes the newline `chr(10)`). -/
def replaceNl (s : Str) : Str := s.flatMap brChar

/-- `string.ascii_uppercase`. -/
def asciiUppercase : Str := ("ABCDEFGHIJKLMNOPQRSTUVWXYZ").data

/-- `string.ascii_uppercase[i]`; the classifier only ever uses `i < 4`,
so the out-of-range default is unreachable there. -/
def letterAt (i : Nat) : Char := asciiUppercase.getD i '?'

/-- One option line of `build_front_html`. -/
def optionLine (i : Nat) (opt : Str) : Str :=
  ("<div style='margin:2px 0;'>").data ++
  ("<span style='display:inline-block; width:24px;'>").data ++
  [letterAt i] ++ (".</span>").data ++
  ("<span>").data ++ htmlEscape opt ++ ("</span>").data ++
  ("</div>").data

/-- `build_front_html` of the source. -/
def build_front_html (question : Str) (options : List Str) : Str :=
  let q := replaceNl (htmlEscape question)
  ("<div style='text-align:left;'>").data ++
  ("<div style='font-weight:700; margin-bottom:8px;'>").data ++ q ++ ("</div>").data ++
  (if options.isEmpty then [] else
    ("<div>").data ++ options.enum.flatMap (fun p => optionLine p.1 p.2) ++ ("</div>").data) ++
  ("</div>").data

/-- One answer block of `build_back_html`. -/
def answerBlock (t : Str) : Str :=
  ("<div style='margin-top:4px;'>").data ++ replaceNl (htmlEscape t) ++ ("</div>").data

/-- `", ".join(correct_letters)`; the letters are single characters. -/
def joinLetters (ls : List Char) : Str :=
  List.intercalate ((", ").data) (ls.map (fun c => [c]))

/-- `build_back_html` of the source. -/
def build_back_html (correct_letters : List Char) (correct_texts : List Str) : Str :=
  ("<div style='text-align:left;'>").data ++
  ("<div style='margin-top:8px;'><b>Richtige Antwort:</b> ").data ++
  htmlEscape (joinLetters correct_letters) ++ ("</div>").data ++
  correct_texts.flatMap answerBlock ++
  ("</div>").data

/-- The free-text back HTML built inline in `process_row`. -/
def free_text_back (correct_raw : Str) : Str :=
  ("<div style='text-align:left;'>").data ++
  ("<div style='margin-top:8px;'><b>Antwort:</b></div>").data ++
  ("<div style='margin-top:4px;'>").data ++ replaceNl (htmlEscape correct_raw) ++ ("</div>").data ++
  ("</div>").data

/-- The canonical fields `process_row` extracts in its first six lines:
already `normalize`d (stripped) strings. -/
structure CanonicalFields where
  question : Str
  optionA : Str
  optionB : Str
  optionC : Str
  optionD : Str
  correctRaw : Str
deriving DecidableEq

/-- The four skip reason codes. -/
inductive Reason
  | missing_question
  | missing_correct_answer
  | not_enough_options
  | correct_answer_not_found
deriving DecidableEq

/-- What the classifier decides for a row, before HTML rendering. -/
inductive RowOutcome
  | reject (r : Reason)
  | freeText (question answer : Str)
  | multi (question : Str) (shuffled_options : List Str)
      (correct_letters : List Char) (correct_texts : List Str)
deriving DecidableEq

/-- `raw_options = [a, b, c, d]`. -/
def rawOptions (f : CanonicalFields) : List Str :=
  [f.optionA, f.optionB, f.optionC, f.optionD]

/-- `options = [opt for opt in raw_options if opt]`. -/
def optionsOf (f : CanonicalFields) : List Str :=
  (rawOptions f).filter (fun o => !o.isEmpty)

/-- `parts = [p.strip() for p in correct_raw.split("|") if p.strip()]`. -/
def correctParts (correct_raw : Str) : List Str :=
  ((splitOnPipe correct_raw).map pyStrip).filter (fun p => !p.isEmpty)

/-- `correct_keys = [matchkey(p) for p in parts]`. -/
def correctKeys (f : CanonicalFields) : List Str :=
  (correctParts f.correctRaw).map matchkey

/-- The classification part of `process_row` (lines 109-160 of the source),
with `random.shuffle` modelled as an explicit permutation `shuffle` of the
enumerated option list.  Membership in the dict `option_key_to_text` is
existence of an option with that matching key; membership in the set
`correct_key_set` is membership in `correct_keys`. -/
def classifyFields (shuffle : List (Nat × Str) → List (Nat × Str))
    (f : CanonicalFields) : RowOutcome :=
  if f.question.isEmpty then .reject .missing_question
  else
    let options := optionsOf f
    if options.isEmpty then
      (if f.correctRaw.isEmpty then .reject .missing_correct_answer
       else .freeText f.question f.correctRaw)
    else if options.length < 2 then .reject .not_enough_options
    else if f.correctRaw.isEmpty then .reject .missing_correct_answer
    else
      let parts := correctParts f.correctRaw
      if parts.isEmpty then .reject .missing_correct_answer
      else
        let correct_keys := parts.map matchkey
        if correct_keys.any (fun k => !(options.any (fun o => matchkey o == k))) then
          .reject .correct_answer_not_found
        else
          let indexed := shuffle options.enum
          let shuffled_options := indexed.map Prod.snd
          let flagged := indexed.enum.filter (fun q => decide (matchkey q.2.2 ∈ correct_keys))
          let correct_letters := flagged.map (fun q => letterAt q.1)
          let correct_texts := flagged.map (fun q => q.2.2)
          if correct_letters.isEmpty then .reject .correct_answer_not_found
          else .multi f.question shuffled_options correct_letters correct_texts

/-- Rendering of a classified row into a `(front, back)` card or a reason. -/
def renderOutcome : RowOutcome → Except Reason (Str × Str)
  | .reject r => .error r
  | .freeText q ans => .ok (build_front_html q [], free_text_back ans)
  | .multi q opts ls ts => .ok (build_front_html q opts, build_back_html ls ts)

/-- `process_row` on canonical fields: classify, then render. -/
def processFields (shuffle : List (Nat × Str) → List (Nat × Str))
    (f : CanonicalFields) : Except Reason (Str × Str) :=
  renderOutcome (classifyFields shuffle f)

/-- Lines 102-107 of `process_row`: canonical fields from a raw row. -/
def fieldsOfRow (row : Row) : CanonicalFields where
  question := pyNormalize (pick row [("Frage").data, ("Question").data])
  optionA := pyNormalize (pick row [("Antwort A").data])
  optionB := pyNormalize (pick row [("Antwort B").data])
  optionC := pyNormalize (pick row [("Antwort C").data])
  optionD := pyNormalize (pick row [("Antwort D").data])
  correctRaw := pyNormalize (pick row [("Richtige Antwort").data])

/-- `process_row` of the source, on a raw row. -/
def processRow (shuffle : List (Nat × Str) → List (Nat × Str))
    (row : Row) : Except Reason (Str × Str) :=
  processFields shuffle (fieldsOfRow row)

/-! Lemmas about whitespace splitting. -/

theorem splitSegs_map_of_compat {f : Char → Char} {p : Char → Bool}
    (hsp : ∀ c, p (f c) = p c) (hid : ∀ c, p c = false → f c = c) :
    ∀ s : Str, splitSegs p (s.map f) = splitSegs p s := by
  intro s
  induction s with
  | nil => rfl
  | cons c t ih =>
    simp only [List.map_cons, splitSegs, ih, hsp c]
    cases hc : p c with
    | true => simp
    | false => simp [hid c hc]

theorem segsOn_map_of_compat {f : Char → Char} {p : Char → Bool}
    (hsp : ∀ c, p (f c) = p c) (hid : ∀ c, p c = false → f c = c) (s : Str) :
    segsOn p (s.map f) = segsOn p s := by
  simp [segsOn, splitSegs_map_of_compat hsp hid]

theorem pySplit_map_of_compat {f : Char → Char}
    (hsp : ∀ c, pyIsSpace (f c) = pyIsSpace c)
    (hid : ∀ c, pyIsSpace c = false → f c = c) (s : Str) :
    pySplit (s.map f) = pySplit s := by
  simp [pySplit, segsOn_map_of_compat hsp hid]

theorem segsOn_cons_of_pos {p : Char → Bool} {c : Char} (h : p c = true) (t : Str) :
    segsOn p (c :: t) = [] :: segsOn p t := by
  simp [segsOn, splitSegs, h]

theorem segsOn_cons_of_neg {p : Char → Bool} {c : Char} (h : p c = false) (t : Str) :
    segsOn p (c :: t) = (c :: (splitSegs p t).1) :: (splitSegs p t).2 := by
  simp [segsOn, splitSegs, h]

theorem pySplit_cons_of_space {c : Char} (h : pyIsSpace c = true) (t : Str) :
    pySplit (c :: t) = pySplit t := by
  simp only [pySplit]
  rw [segsOn_cons_of_pos h, List.filter_cons_of_neg (by simp)]

theorem pySplit_dropWhile (s : Str) :
    pySplit (s.dropWhile pyIsSpace) = pySplit s := by
  induction s with
  | nil => rfl
  | cons c t ih =>
    cases hc : pyIsSpace c with
    | true => rw [List.dropWhile_cons_of_pos hc, ih, pySplit_cons_of_space hc]
    | false => rw [List.dropWhile_cons_of_neg (by simp [hc])]

theorem segsOn_all_space {p : Char → Bool} {w : Str} (hw : ∀ c ∈ w, p c = true) :
    segsOn p w = List.replicate (w.length + 1) [] := by
  induction w with
  | nil => rfl
  | cons c t ih =>
    rw [segsOn_cons_of_pos (hw c (by simp)) t, ih (fun c hc => hw c (by simp [hc]))]
    simp [List.replicate_succ]

theorem segsOn_append_space {p : Char → Bool} {w : Str}
    (hw : ∀ c ∈ w, p c = true) (s : Str) :
    segsOn p (s ++ w) = segsOn p s ++ List.replicate w.length [] := by
  induction s with
  | nil =>
    rw [List.nil_append, segsOn_all_space hw]
    simp [segsOn, splitSegs, List.replicate_succ]
  | cons c t ih =>
    cases hc : p c with
    | true =>
      rw [List.cons_append, segsOn_cons_of_pos hc, segsOn_cons_of_pos hc, ih,
        List.cons_append]
    | false =>
      rw [List.cons_append, segsOn_cons_of_neg hc, segsOn_cons_of_neg hc]
      have h1 : (splitSegs p (t ++ w)).1 :: (splitSegs p (t ++ w)).2 =
          (splitSegs p t).1 :: ((splitSegs p t).2 ++ List.replicate w.length []) := by
        have := ih
        simpa [segsOn] using this
      obtain ⟨e1, e2⟩ := List.cons.injEq .. ▸ h1
      rw [e1, e2, List.cons_append]

theorem pySplit_append_space {w : Str} (hw : ∀ c ∈ w, pyIsSpace c = true) (s : Str) :
    pySplit (s ++ w) = pySplit s := by
  simp [pySplit, segsOn_append_space hw, List.filter_append]

theorem rdropWhile_append_rtakeWhile (p : Char → Bool) (s : Str) :
    List.rdropWhile p s ++ List.rtakeWhile p s = s := by
  rw [List.rdropWhile, List.rtakeWhile, ← List.reverse_append,
    List.takeWhile_append_dropWhile, List.reverse_reverse]

theorem pySplit_rdropWhile (s : Str) :
    pySplit (List.rdropWhile pyIsSpace s) = pySplit s := by
  conv_rhs => rw [← rdropWhile_append_rtakeWhile pyIsSpace s]
  rw [pySplit_append_space (fun c hc => List.mem_rtakeWhile_imp hc)]

theorem pySplit_pyStrip (s : Str) : pySplit (pyStrip s) = pySplit s := by
  rw [pyStrip, pySplit_rdropWhile, pySplit_dropWhile]

/-- The non-breaking-space substitution performed by `matchkey`. -/
def nbspToSpace (c : Char) : Char := if c == '\u00A0' then ' ' else c

theorem pyIsSpace_nbspToSpace (c : Char) : pyIsSpace (nbspToSpace c) = pyIsSpace c := by
  unfold nbspToSpace
  by_cases h : c = '\u00A0'
  · subst h; decide
  · simp [h]

theorem nbspToSpace_of_not_space {c : Char} (h : pyIsSpace c = false) :
    nbspToSpace c = c := by
  unfold nbspToSpace
  by_cases hc : c = '\u00A0'
  · subst hc; exact absurd h (by decide)
  · simp [hc]

/-- `matchkey` is determined by the whitespace-separated tokens of its input:
strip and the non-breaking-space substitution do not change them. -/
theorem matchkey_eq_joinSpace_pySplit (s : Str) :
    matchkey s = joinSpace (pySplit s) := by
  show joinSpace (pySplit (List.map nbspToSpace (pyStrip s))) = _
  rw [pySplit_map_of_compat pyIsSpace_nbspToSpace (fun c => nbspToSpace_of_not_space),
    pySplit_pyStrip]

/-! Lemmas about the classifier. -/

theorem enum_fst_lt {α : Type} {l : List α} {i : Nat} {x : α}
    (h : (i, x) ∈ l.enum) : i < l.length := by
  have h1 := List.mk_mem_enum_iff_getElem?.mp h
  exact (List.getElem?_eq_some.mp h1).1

theorem correctParts_nil : correctParts [] = [] := rfl

theorem classifyFields_mc (shuffle : List (Nat × Str) → List (Nat × Str))
    (f : CanonicalFields)
    (hq : f.question.isEmpty = false)
    (h2 : 2 ≤ (optionsOf f).length)
    (hp : correctParts f.correctRaw ≠ [])
    (hm : ∀ k ∈ (correctParts f.correctRaw).map matchkey, ∃ o ∈ optionsOf f, matchkey o = k)
    (hperm : (shuffle (optionsOf f).enum).Perm (optionsOf f).enum) :
    classifyFields shuffle f =
      .multi f.question
        ((shuffle (optionsOf f).enum).map Prod.snd)
        (((shuffle (optionsOf f).enum).enum.filter
            (fun x => decide (matchkey x.2.2 ∈ (correctParts f.correctRaw).map matchkey))).map
          (fun x => letterAt x.1))
        (((shuffle (optionsOf f).enum).map Prod.snd).filter
          (fun t => decide (matchkey t ∈ (correctParts f.correctRaw).map matchkey))) := by
  have hne : (optionsOf f).isEmpty = false := by
    rw [List.isEmpty_eq_false]
    intro h0
    rw [h0] at h2
    simp at h2
  have hlt : ¬ ((optionsOf f).length < 2) := Nat.not_lt.mpr h2
  have hcr : f.correctRaw.isEmpty = false := by
    rw [List.isEmpty_eq_false]
    intro h0
    rw [h0] at hp
    exact hp correctParts_nil
  have hpe : (correctParts f.correctRaw).isEmpty = false := by
    rw [List.isEmpty_eq_false]; exact hp
  have hany : (((correctParts f.correctRaw).map matchkey).any
      (fun k => !((optionsOf f).any (fun o => matchkey o == k)))) = false := by
    rw [List.any_eq_false]
    intro k hk
    obtain ⟨o, ho, hko⟩ := hm k hk
    have h1 : ((optionsOf f).any (fun o => matchkey o == k)) = true :=
      List.any_eq_true.mpr ⟨o, ho, beq_iff_eq.mpr hko⟩
    simp [h1]
  have hmapsnd : ((shuffle (optionsOf f).enum).enum.map (fun x => x.2.2))
      = (shuffle (optionsOf f).enum).map Prod.snd := by
    rw [show (fun x : Nat × Nat × Str => x.2.2) = (Prod.snd ∘ Prod.snd) from rfl,
      ← List.map_map, List.enum_map_snd]
  have hfm : (((shuffle (optionsOf f).enum).enum.filter
        (fun x => decide (matchkey x.2.2 ∈ (correctParts f.correctRaw).map matchkey))).map
        (fun x => x.2.2))
      = ((shuffle (optionsOf f).enum).map Prod.snd).filter
          (fun t => decide (matchkey t ∈ (correctParts f.correctRaw).map matchkey)) := by
    rw [← hmapsnd, List.filter_map]
    rfl
  have hts_ne : ((shuffle (optionsOf f).enum).map Prod.snd).filter
      (fun t => decide (matchkey t ∈ (correctParts f.correctRaw).map matchkey)) ≠ [] := by
    obtain ⟨p0, hp0⟩ := List.exists_mem_of_ne_nil _ hp
    obtain ⟨o, ho, hko⟩ := hm (matchkey p0) (List.mem_map_of_mem _ hp0)
    have h1 : ((shuffle (optionsOf f).enum).map Prod.snd).Perm (optionsOf f) := by
      have h2 := hperm.map Prod.snd
      rwa [List.enum_map_snd] at h2
    refine List.ne_nil_of_mem (List.mem_filter.mpr ⟨h1.mem_iff.mpr ho, ?_⟩)
    simp only [decide_eq_true_eq]
    exact hko ▸ List.mem_map_of_mem _ hp0
  have hflag : ((((shuffle (optionsOf f).enum).enum.filter
      (fun x => decide (matchkey x.2.2 ∈ (correctParts f.correctRaw).map matchkey))).map
      (fun x => letterAt x.1)).isEmpty) = false := by
    rw [List.isEmpty_eq_false, Ne, List.map_eq_nil_iff]
    intro h0
    apply hts_ne
    rw [← hfm, h0, List.map_nil]
  simp only [classifyFields, hq, hne, hlt, hcr, hpe, hany, hflag, Bool.false_eq_true,
    if_false]
  rw [hfm]

theorem classifyFields_multi_inv {shuffle : List (Nat × Str) → List (Nat × Str)}
    {f : CanonicalFields} {q : Str} {so : List Str} {ls : List Char} {ts : List Str}
    (h : classifyFields shuffle f = .multi q so ls ts) :
    q = f.question ∧
    so = (shuffle (optionsOf f).enum).map Prod.snd ∧
    ls = ((shuffle (optionsOf f).enum).enum.filter
        (fun x => decide (matchkey x.2.2 ∈ (correctParts f.correctRaw).map matchkey))).map
      (fun x => letterAt x.1) ∧
    ts = ((shuffle (optionsOf f).enum).enum.filter
        (fun x => decide (matchkey x.2.2 ∈ (correctParts f.correctRaw).map matchkey))).map
      (fun x => x.2.2) := by
  simp only [classifyFields] at h
  split at h
  · cases h
  · split at h
    · split at h
      · cases h
      · cases h
    · split at h
      · cases h
      · split at h
        · cases h
        · split at h
          · cases h
          · split at h
            · cases h
            · split at h
              · cases h
              · rw [RowOutcome.multi.injEq] at h
                obtain ⟨h1, h2, h3, h4⟩ := h
                exact ⟨h1.symm, h2.symm, h3.symm, h4.symm⟩

theorem pySplit_space_append {w : Str} (hw : ∀ c ∈ w, pyIsSpace c = true) (s : Str) :
    pySplit (w ++ s) = pySplit s := by
  induction w with
  | nil => rfl
  | cons c t ih =>
    rw [List.cons_append, pySplit_cons_of_space (hw c (by simp))]
    exact ih (fun c hc => hw c (by simp [hc]))

/-- C7: matching-key normalization identifies whitespace variants.  Two texts
with the same whitespace-separated tokens have the same matching key; in
particular replacing non-breaking spaces by regular spaces, changing the
length of internal whitespace runs (both are token-preserving) or padding
with surrounding whitespace never changes the matching key, so such an option
text and correct-answer part are treated as the same answer. -/
theorem matchkey_whitespace_equiv :
    (∀ s t : Str, pySplit s = pySplit t → matchkey s = matchkey t) ∧
    (∀ s : Str, matchkey (s.map nbspToSpace) = matchkey s) ∧
    (∀ w₁ w₂ s : Str, (∀ c ∈ w₁, pyIsSpace c = true) → (∀ c ∈ w₂, pyIsSpace c = true) →
      matchkey (w₁ ++ s ++ w₂) = matchkey s) := by
  refine ⟨fun s t h => ?_, fun s => ?_, fun w₁ w₂ s h₁ h₂ => ?_⟩
  · rw [matchkey_eq_joinSpace_pySplit, matchkey_eq_joinSpace_pySplit, h]
  · rw [matchkey_eq_joinSpace_pySplit, matchkey_eq_joinSpace_pySplit,
      pySplit_map_of_compat pyIsSpace_nbspToSpace (fun c => nbspToSpace_of_not_space)]
  · rw [matchkey_eq_joinSpace_pySplit, matchkey_eq_joinSpace_pySplit,
      List.append_assoc, pySplit_space_append h₁, pySplit_append_space h₂]

/-- Witness for `matchkey_whitespace_equiv` at concrete inputs: a non-breaking
space and trailing blank versus a leading blank, and surrounding blanks. -/
theorem matchkey_whitespace_equiv_witness :
    matchkey (("a b ").data) = matchkey ((" a b").data) ∧
    matchkey ((" x  y ").data) = matchkey (("x  y").data) :=
  ⟨matchkey_whitespace_equiv.1 (("a b ").data) ((" a b").data) (by decide),
   matchkey_whitespace_equiv.2.2 [' '] [' '] (("x  y").data) (by decide) (by decide)⟩

/-- The field resolver as section 4.1 of the spec states it, for comparison
with `pick`: the first candidate whose normalized form equals the normalized
form of some header wins, and the returned value is that of the matching
header (the source's normalized-header map is last-wins, so the last matching
header); when no candidate matches any header the result is absence. -/
def pickSpec (row : Row) (cands : List Str) : Option Str :=
  match cands.find? (fun w => row.any (fun p => normkey p.1 == normkey w)) with
  | some w => (row.reverse.find? (fun p => normkey p.1 == normkey w)).map Prod.snd
  | none => none

theorem rowGet_of_mem {row : Row} (hnd : (row.map Prod.fst).Nodup)
    {pr : Str × Str} (hmem : pr ∈ row) : rowGet row pr.1 = some pr.2 := by
  unfold rowGet
  have hex : ∃ x, x ∈ row ∧ (x.1 == pr.1) = true := ⟨pr, hmem, beq_self_eq_true _⟩
  obtain ⟨g, hg⟩ := Option.isSome_iff_exists.mp (List.find?_isSome.mpr hex)
  rw [hg]
  have hg1 : (g.1 == pr.1) = true := List.find?_some (p := fun x : Str × Str => x.1 == pr.1) hg
  have hgm : g ∈ row := List.mem_of_find?_eq_some hg
  have hgp : g = pr :=
    List.inj_on_of_nodup_map hnd hgm hmem (beq_iff_eq.mp hg1)
  rw [hgp]
  rfl

theorem pick_eq_pickSpec_aux (row : Row) (hnd : (row.map Prod.fst).Nodup) :
    ∀ cands : List Str, pick row cands = pickSpec row cands := by
  intro cands
  induction cands with
  | nil => rfl
  | cons w ws ih =>
    cases hfind : row.reverse.find? (fun p => normkey p.1 == normkey w) with
    | none =>
      have hany : (row.any (fun p => normkey p.1 == normkey w)) = false := by
        rw [← List.any_reverse, List.any_eq_false]
        exact List.find?_eq_none.mp hfind
      have h1 : pick row (w :: ws) = pick row ws := by
        simp only [pick, normMapGet, hfind]
        rfl
      have hb : ¬ ((fun v : Str => row.any (fun p => normkey p.1 == normkey v)) w = true) := by
        simp [hany]
      have h2 : pickSpec row (w :: ws) = pickSpec row ws := by
        unfold pickSpec
        rw [List.find?_cons_of_neg ws hb]
      rw [h1, h2, ih]
    | some pr =>
      have hpred : (normkey pr.1 == normkey w) = true :=
        List.find?_some (p := fun x : Str × Str => normkey x.1 == normkey w) hfind
      have hmem : pr ∈ row := List.mem_reverse.mp (List.mem_of_find?_eq_some hfind)
      have hany : (row.any (fun p => normkey p.1 == normkey w)) = true :=
        List.any_eq_true.mpr ⟨pr, hmem, hpred⟩
      have h1 : pick row (w :: ws) = rowGet row pr.1 := by
        simp only [pick, normMapGet, hfind]
        rfl
      have hb : ((fun v : Str => row.any (fun p => normkey p.1 == normkey v)) w = true) := hany
      have h2 : pickSpec row (w :: ws) = some pr.2 := by
        unfold pickSpec
        rw [List.find?_cons_of_pos ws hb]
        show Option.map Prod.snd (row.reverse.find? (fun p => normkey p.1 == normkey w)) =
          some pr.2
        rw [hfind]
        rfl
      rw [h1, h2, rowGet_of_mem hnd hmem]

/-- C6: given a row with distinct headers (a Python dict), `pick` returns the
value of the first candidate logical name whose `normkey`-normalized form
equals the normalized form of some header (`pickSpec`, phrased from the
spec), and returns absence exactly when no candidate's normalized form
matches any header's. -/
theorem pick_matches_spec (row : Row) (hnd : (row.map Prod.fst).Nodup)
    (cands : List Str) :
    pick row cands = pickSpec row cands ∧
    (pick row cands = none ↔ ∀ w ∈ cands, ∀ pr ∈ row, normkey pr.1 ≠ normkey w) := by
  refine ⟨pick_eq_pickSpec_aux row hnd cands, ?_⟩
  rw [pick_eq_pickSpec_aux row hnd cands]
  unfold pickSpec
  cases hfind : cands.find? (fun w => row.any (fun p => normkey p.1 == normkey w)) with
  | none =>
    simp only [true_iff]
    intro w hw pr hpr
    have h1 := List.find?_eq_none.mp hfind w hw
    simp only [Bool.not_eq_true, List.any_eq_false] at h1
    exact fun he => absurd (beq_iff_eq.mpr he) (by simp [h1 pr hpr])
  | some w =>
    have hpred : (row.any (fun p => normkey p.1 == normkey w)) = true :=
      List.find?_some (p := fun v : Str => row.any (fun p => normkey p.1 == normkey v)) hfind
    obtain ⟨pr, hpr, hbeq⟩ := List.any_eq_true.mp hpred
    have hmem : w ∈ cands := List.mem_of_find?_eq_some hfind
    obtain ⟨g, hg⟩ := Option.isSome_iff_exists.mp
      ((List.find?_isSome (p := fun x : Str × Str => normkey x.1 == normkey w)).mpr
        ⟨pr, List.mem_reverse.mpr hpr, hbeq⟩)
    show Option.map Prod.snd (row.reverse.find? (fun p => normkey p.1 == normkey w)) = none ↔ _
    rw [hg]
    constructor
    · intro h
      exact absurd h (by simp)
    · intro hall
      exact absurd (beq_iff_eq.mp hbeq) (hall w hmem pr hpr)

/-- Witness for `pick_matches_spec`: a concrete row whose header differs from
the logical name by case and an underscore, resolved to its value. -/
theorem pick_matches_spec_witness :
    (((([ ((("Frage_1").data), (("F?").data)), ((("x").data), (("y").data)) ] : Row)).map
        Prod.fst).Nodup) ∧
    (pick [ ((("Frage_1").data), (("F?").data)), ((("x").data), (("y").data)) ]
        [(("frage 1").data)] =
      pickSpec [ ((("Frage_1").data), (("F?").data)), ((("x").data), (("y").data)) ]
        [(("frage 1").data)]) :=
  ⟨by decide,
   (pick_matches_spec [ ((("Frage_1").data), (("F?").data)), ((("x").data), (("y").data)) ]
      (by decide) [(("frage 1").data)]).1⟩

/-! Lemmas about the HTML renderer. -/

theorem escapeChar_no_special (c : Char) :
    ∀ d ∈ escapeChar c, d ≠ '<' ∧ d ≠ '>' ∧ d ≠ '"' ∧ d ≠ '\'' := by
  unfold escapeChar
  by_cases h1 : c = '&'
  · subst h1; decide
  rw [if_neg (by simp [h1])]
  by_cases h2 : c = '<'
  · subst h2; decide
  rw [if_neg (by simp [h2])]
  by_cases h3 : c = '>'
  · subst h3; decide
  rw [if_neg (by simp [h3])]
  by_cases h4 : c = '"'
  · subst h4; decide
  rw [if_neg (by simp [h4])]
  by_cases h5 : c = '\''
  · subst h5; decide
  rw [if_neg (by simp [h5])]
  intro d hd
  rw [List.mem_singleton] at hd
  subst hd
  exact ⟨h2, h3, h4, h5⟩

theorem htmlEscape_no_special (t : Str) :
    ∀ d ∈ htmlEscape t, d ≠ '<' ∧ d ≠ '>' ∧ d ≠ '"' ∧ d ≠ '\'' := by
  intro d hd
  rw [htmlEscape, List.mem_flatMap] at hd
  obtain ⟨a, _, hin⟩ := hd
  exact escapeChar_no_special a d hin

theorem newline_mem_escapeChar (c : Char) : '\n' ∈ escapeChar c ↔ c = '\n' := by
  unfold escapeChar
  by_cases h1 : c = '&'
  · subst h1; decide
  rw [if_neg (by simp [h1])]
  by_cases h2 : c = '<'
  · subst h2; decide
  rw [if_neg (by simp [h2])]
  by_cases h3 : c = '>'
  · subst h3; decide
  rw [if_neg (by simp [h3])]
  by_cases h4 : c = '"'
  · subst h4; decide
  rw [if_neg (by simp [h4])]
  by_cases h5 : c = '\''
  · subst h5; decide
  rw [if_neg (by simp [h5])]
  rw [List.mem_singleton]
  exact eq_comm

theorem newline_mem_htmlEscape (s : Str) : '\n' ∈ htmlEscape s ↔ '\n' ∈ s := by
  rw [htmlEscape, List.mem_flatMap]
  constructor
  · rintro ⟨a, ha, hin⟩
    exact (newline_mem_escapeChar a).mp hin ▸ ha
  · intro h
    exact ⟨'\n', h, by decide⟩

theorem newline_not_mem_replaceNl (s : Str) : '\n' ∉ replaceNl s := by
  intro h
  rw [replaceNl, List.mem_flatMap] at h
  obtain ⟨a, _, hin⟩ := h
  revert hin
  unfold brChar
  by_cases ha : a = '\n'
  · subst ha; decide
  · rw [if_neg (by simp [ha])]
    intro he
    rw [List.mem_singleton] at he
    exact ha he.symm

theorem letterAt_ne_newline (i : Nat) : letterAt i ≠ '\n' := by
  unfold letterAt
  rw [List.getD_eq_getElem?_getD]
  cases hg : asciiUppercase[i]? with
  | none => decide
  | some c =>
    have hc : c ∈ asciiUppercase := List.getElem?_mem hg
    exact (by decide : ∀ d ∈ asciiUppercase, d ≠ '\n') c hc

theorem newline_mem_optionLine (i : Nat) (opt : Str) :
    '\n' ∈ optionLine i opt ↔ '\n' ∈ opt := by
  have hL : ¬ ('\n' = letterAt i) := fun h => letterAt_ne_newline i h.symm
  simp +decide [optionLine, newline_mem_htmlEscape, hL]

theorem exists_newline_enum (opts : List Str) :
    (∃ p ∈ opts.enum, '\n' ∈ optionLine p.1 p.2) ↔ ∃ o ∈ opts, '\n' ∈ o := by
  constructor
  · rintro ⟨⟨i, o⟩, hm, h⟩
    exact ⟨o, List.getElem?_mem (List.mk_mem_enum_iff_getElem?.mp hm),
      (newline_mem_optionLine i o).mp h⟩
  · rintro ⟨o, ho, h⟩
    obtain ⟨n, hn⟩ := List.mem_iff_getElem?.mp ho
    exact ⟨(n, o), List.mk_mem_enum_iff_getElem?.mpr hn, (newline_mem_optionLine n o).mpr h⟩

theorem newline_mem_front (q : Str) (opts : List Str) :
    '\n' ∈ build_front_html q opts ↔ ∃ o ∈ opts, '\n' ∈ o := by
  simp only [build_front_html]
  by_cases he : opts.isEmpty = true
  · have h0 : opts = [] := List.isEmpty_iff.mp he
    subst h0
    simp +decide [List.mem_append, newline_not_mem_replaceNl]
  · rw [if_neg he]
    constructor
    · intro h
      rcases List.mem_append.mp h with h | h
      · rcases List.mem_append.mp h with h | h
        · rcases List.mem_append.mp h with h | h
          · rcases List.mem_append.mp h with h | h
            · rcases List.mem_append.mp h with h | h
              · exact absurd h (by decide)
              · exact absurd h (by decide)
            · exact absurd h (newline_not_mem_replaceNl _)
          · exact absurd h (by decide)
        · rcases List.mem_append.mp h with h | h
          · rcases List.mem_append.mp h with h | h
            · exact absurd h (by decide)
            · rw [List.mem_flatMap] at h
              obtain ⟨a, ha, hin⟩ := h
              exact (exists_newline_enum opts).mp ⟨a, ha, hin⟩
          · exact absurd h (by decide)
      · exact absurd h (by decide)
    · intro h
      obtain ⟨p, hp, hin⟩ := (exists_newline_enum opts).mpr h
      refine List.mem_append.mpr (Or.inl ?_)
      refine List.mem_append.mpr (Or.inr ?_)
      refine List.mem_append.mpr (Or.inl ?_)
      refine List.mem_append.mpr (Or.inr ?_)
      exact List.mem_flatMap.mpr ⟨p, hp, hin⟩

theorem mem_of_mem_intersperse {α : Type} {sep x : α} :
    ∀ {ys : List α}, x ∈ List.intersperse sep ys → x ∈ ys ∨ x = sep
  | [], h => by cases h
  | [b], h => by
    rw [List.intersperse_singleton] at h
    exact Or.inl h
  | b :: c :: tl, h => by
    rw [List.intersperse_cons_cons] at h
    rcases List.mem_cons.mp h with h | h
    · exact Or.inl (h ▸ List.mem_cons_self b (c :: tl))
    rcases List.mem_cons.mp h with h | h
    · exact Or.inr h
    · rcases mem_of_mem_intersperse h with h | h
      · exact Or.inl (List.mem_cons_of_mem b h)
      · exact Or.inr h

theorem newline_not_mem_joinLetters {ls : List Char} (hls : ∀ c ∈ ls, c ≠ '\n') :
    '\n' ∉ joinLetters ls := by
  intro h
  rw [joinLetters, List.intercalate, List.mem_flatten] at h
  obtain ⟨l, hl, hd⟩ := h
  rcases mem_of_mem_intersperse hl with hy | hsep
  · rw [List.mem_map] at hy
    obtain ⟨c, hc, rfl⟩ := hy
    rw [List.mem_singleton] at hd
    exact hls c hc hd.symm
  · subst hsep
    exact absurd hd (by decide)

theorem newline_not_mem_answerBlock (t : Str) : '\n' ∉ answerBlock t := by
  intro h
  unfold answerBlock at h
  rcases List.mem_append.mp h with h | h
  · rcases List.mem_append.mp h with h | h
    · exact absurd h (by decide)
    · exact newline_not_mem_replaceNl _ h
  · exact absurd h (by decide)

theorem newline_not_mem_back {ls : List Char} (hls : ∀ c ∈ ls, c ≠ '\n')
    (ts : List Str) : '\n' ∉ build_back_html ls ts := by
  intro h
  unfold build_back_html at h
  rcases List.mem_append.mp h with h | h
  · rcases List.mem_append.mp h with h | h
    · rcases List.mem_append.mp h with h | h
      · rcases List.mem_append.mp h with h | h
        · exact absurd h (by decide)
        · exact newline_not_mem_joinLetters hls ((newline_mem_htmlEscape _).mp h)
      · exact absurd h (by decide)
    · rw [List.mem_flatMap] at h
      obtain ⟨t, _, hin⟩ := h
      exact newline_not_mem_answerBlock t hin
  · exact absurd h (by decide)

theorem newline_not_mem_free_back (ans : Str) : '\n' ∉ free_text_back ans := by
  intro h
  unfold free_text_back at h
  rcases List.mem_append.mp h with h | h
  · rcases List.mem_append.mp h with h | h
    · rcases List.mem_append.mp h with h | h
      · rcases List.mem_append.mp h with h | h
        · rcases List.mem_append.mp h with h | h
          · exact absurd h (by decide)
          · exact absurd h (by decide)
        · exact absurd h (by decide)
      · exact newline_not_mem_replaceNl _ h
    · exact absurd h (by decide)
  · exact absurd h (by decide)

/-- One option line as claim C5 describes it: the option text escaped and then
newline-converted, like the question.  Stated from the spec's words for
comparison with `optionLine`. -/
def optionLineClaim (i : Nat) (opt : Str) : Str :=
  ("<div style='margin:2px 0;'>").data ++
  ("<span style='display:inline-block; width:24px;'>").data ++
  [letterAt i] ++ (".</span>").data ++
  ("<span>").data ++ replaceNl (htmlEscape opt) ++ ("</span>").data ++
  ("</div>").data

/-- The front builder as claim C5 describes it, using `optionLineClaim`. -/
def build_front_html_claim (question : Str) (options : List Str) : Str :=
  let q := replaceNl (htmlEscape question)
  ("<div style='text-align:left;'>").data ++
  ("<div style='font-weight:700; margin-bottom:8px;'>").data ++ q ++ ("</div>").data ++
  (if options.isEmpty then [] else
    ("<div>").data ++ options.enum.flatMap (fun p => optionLineClaim p.1 p.2) ++
      ("</div>").data) ++
  ("</div>").data

set_option maxRecDepth 4000 in
/-- C5 counterexample: for an option text holding a literal newline, the front
HTML keeps the raw newline — the option text is escaped but not
newline-converted — so it differs from the claimed escape-then-convert
rendering, whose output holds no raw newline at all. -/
theorem front_newline_counterexample :
    '\n' ∈ build_front_html (("q").data) [("a\nb").data] ∧
    build_front_html (("q").data) [("a\nb").data] ≠
      build_front_html_claim (("q").data) [("a\nb").data] ∧
    '\n' ∉ build_front_html_claim (("q").data) [("a\nb").data] := by decide

/-- C5 (amended): every piece of user-supplied text is HTML-escaped before
being embedded — no raw `<`, `>`, `"` or `'` of any text survives escaping —
and literal newlines are converted to line-break markup after escaping in the
question, in the back-side correct texts and in the free-text answer; the
option texts on the front, however, are only escaped, so the front HTML holds
a raw newline exactly when some displayed option text does. -/
theorem renderer_escaping :
    (∀ t : Str, ∀ d ∈ htmlEscape t, d ≠ '<' ∧ d ≠ '>' ∧ d ≠ '"' ∧ d ≠ '\'') ∧
    (∀ t : Str, '\n' ∉ replaceNl (htmlEscape t)) ∧
    (∀ (q : Str) (opts : List Str),
      ('\n' ∈ build_front_html q opts ↔ ∃ o ∈ opts, '\n' ∈ o)) ∧
    (∀ (ls : List Char) (ts : List Str), (∀ c ∈ ls, c ≠ '\n') →
      '\n' ∉ build_back_html ls ts) ∧
    (∀ ans : Str, '\n' ∉ free_text_back ans) :=
  ⟨htmlEscape_no_special, fun t => newline_not_mem_replaceNl (htmlEscape t),
   newline_mem_front, fun _ ts hls => newline_not_mem_back hls ts,
   newline_not_mem_free_back⟩

/-- Witness for `renderer_escaping`: the back side of a card with one correct
letter and a two-line answer text holds no raw newline. -/
theorem renderer_escaping_witness :
    '\n' ∉ build_back_html ['A'] [("x\ny").data] :=
  renderer_escaping.2.2.2.1 ['A'] [("x\ny").data] (by decide)

theorem isEmpty_false_of_two_le {l : List Str} (h2 : 2 ≤ l.length) :
    l.isEmpty = false := by
  rw [List.isEmpty_eq_false]
  intro h0
  rw [h0] at h2
  simp at h2

theorem correctRaw_ne_empty {cr : Str} (hp : correctParts cr ≠ []) :
    cr.isEmpty = false := by
  rw [List.isEmpty_eq_false]
  intro h0
  rw [h0] at hp
  exact hp correctParts_nil

/-- C2 (amended): for canonical fields with no non-empty option the classifier
returns a free-text card, or rejects with missing_question (when the question
is empty) or with missing_correct_answer; it never returns not_enough_options
or correct_answer_not_found.  (The claim as stated omits the missing_question
case, possible when the question is empty.) -/
theorem no_options_outcome (shuffle : List (Nat × Str) → List (Nat × Str))
    (f : CanonicalFields) (h0 : optionsOf f = []) :
    (classifyFields shuffle f = .freeText f.question f.correctRaw ∨
     classifyFields shuffle f = .reject .missing_question ∨
     classifyFields shuffle f = .reject .missing_correct_answer) ∧
    classifyFields shuffle f ≠ .reject .not_enough_options ∧
    classifyFields shuffle f ≠ .reject .correct_answer_not_found := by
  have he : (optionsOf f).isEmpty = true := by rw [h0]; rfl
  by_cases hq : f.question.isEmpty = true
  · simp [classifyFields, hq]
  · by_cases hcr : f.correctRaw.isEmpty = true
    · simp [classifyFields, he, hq, hcr]
    · simp [classifyFields, he, hq, hcr]

/-- Witness for `no_options_outcome`: all four option fields empty and a
free-text answer. -/
theorem no_options_outcome_witness :
    (classifyFields (fun l => l) ⟨("q").data, [], [], [], [], ("Because gravity.").data⟩ =
        .freeText (("q").data) (("Because gravity.").data) ∨
     classifyFields (fun l => l) ⟨("q").data, [], [], [], [], ("Because gravity.").data⟩ =
        .reject .missing_question ∨
     classifyFields (fun l => l) ⟨("q").data, [], [], [], [], ("Because gravity.").data⟩ =
        .reject .missing_correct_answer) ∧
    classifyFields (fun l => l) ⟨("q").data, [], [], [], [], ("Because gravity.").data⟩ ≠
      .reject .not_enough_options ∧
    classifyFields (fun l => l) ⟨("q").data, [], [], [], [], ("Because gravity.").data⟩ ≠
      .reject .correct_answer_not_found :=
  no_options_outcome (fun l => l)
    ⟨("q").data, [], [], [], [], ("Because gravity.").data⟩ (by decide)

/-- C2 counterexample: with every option field empty and an empty question the
classifier rejects with missing_question — neither a free-text card nor the
rejection missing_correct_answer, which is all the claim as stated allows. -/
theorem no_options_counterexample :
    classifyFields (fun l => l) ⟨[], [], [], [], [], ("x").data⟩ =
      .reject .missing_question ∧
    (∀ q a, classifyFields (fun l => l) ⟨[], [], [], [], [], ("x").data⟩ ≠ .freeText q a) ∧
    classifyFields (fun l => l) ⟨[], [], [], [], [], ("x").data⟩ ≠
      .reject .missing_correct_answer := by
  refine ⟨by decide, ?_, by decide⟩
  intro q a h
  rw [(by decide : classifyFields (fun l => l) ⟨[], [], [], [], [], ("x").data⟩ =
    .reject .missing_question)] at h
  exact RowOutcome.noConfusion h

/-- C3: with a non-empty question, at least two non-empty options and a
non-empty pipe-split correct-answer list, if some trimmed part's matching key
equals no option's matching key, the classifier rejects with
correct_answer_not_found — for every shuffle, regardless of how many other
parts match an option. -/
theorem unmatched_key_rejected (shuffle : List (Nat × Str) → List (Nat × Str))
    (f : CanonicalFields)
    (hq : f.question.isEmpty = false)
    (h2 : 2 ≤ (optionsOf f).length)
    (hp : correctParts f.correctRaw ≠ [])
    (hbad : ∃ p ∈ correctParts f.correctRaw,
      ∀ o ∈ optionsOf f, matchkey o ≠ matchkey p) :
    classifyFields shuffle f = .reject .correct_answer_not_found := by
  have hne : (optionsOf f).isEmpty = false := isEmpty_false_of_two_le h2
  have hlt : ¬ ((optionsOf f).length < 2) := Nat.not_lt.mpr h2
  have hcr : f.correctRaw.isEmpty = false := correctRaw_ne_empty hp
  have hpe : (correctParts f.correctRaw).isEmpty = false := by
    rw [List.isEmpty_eq_false]; exact hp
  have hany : (((correctParts f.correctRaw).map matchkey).any
      (fun k => !((optionsOf f).any (fun o => matchkey o == k)))) = true := by
    obtain ⟨p, hpmem, hno⟩ := hbad
    apply List.any_eq_true.mpr
    refine ⟨matchkey p, List.mem_map_of_mem _ hpmem, ?_⟩
    have hfalse : ((optionsOf f).any (fun o => matchkey o == matchkey p)) = false := by
      apply List.any_eq_false.mpr
      intro o ho
      simp [hno o ho]
    rw [hfalse]
    rfl
  simp [classifyFields, hq, hne, hlt, hcr, hpe, hany]

/-- Witness for `unmatched_key_rejected`: correct answer `Z` with options
`A`, `B`, `C`. -/
theorem unmatched_key_rejected_witness :
    classifyFields (fun l => l)
      ⟨("q").data, ("A").data, ("B").data, ("C").data, [], ("Z").data⟩ =
      .reject .correct_answer_not_found :=
  unmatched_key_rejected (fun l => l)
    ⟨("q").data, ("A").data, ("B").data, ("C").data, [], ("Z").data⟩
    (by decide) (by decide) (by decide) (by decide)

theorem count_eq_of_perm {l₁ l₂ : List Str} (h : l₁.Perm l₂) (t : Str) :
    l₁.count t = l₂.count t :=
  h.countP_eq (fun x => x == t)

theorem filter_enum_map_snd (l : List (Nat × Str)) (ks : List Str) :
    ((l.enum.filter (fun x => decide (matchkey x.2.2 ∈ ks))).map (fun x => x.2.2))
    = (l.map Prod.snd).filter (fun t => decide (matchkey t ∈ ks)) := by
  have hmapsnd : (l.enum.map (fun x => x.2.2)) = l.map Prod.snd := by
    rw [show (fun x : Nat × Nat × Str => x.2.2) = (Prod.snd ∘ Prod.snd) from rfl,
      ← List.map_map, List.enum_map_snd]
  rw [← hmapsnd, List.filter_map]
  rfl

theorem shuffled_perm_options {shuffle : List (Nat × Str) → List (Nat × Str)}
    {f : CanonicalFields}
    (hperm : (shuffle (optionsOf f).enum).Perm (optionsOf f).enum) :
    ((shuffle (optionsOf f).enum).map Prod.snd).Perm (optionsOf f) := by
  have h1 := hperm.map Prod.snd
  rwa [List.enum_map_snd] at h1

theorem exists_correct_in_shuffled {shuffle : List (Nat × Str) → List (Nat × Str)}
    {f : CanonicalFields}
    (hperm : (shuffle (optionsOf f).enum).Perm (optionsOf f).enum)
    (hp : correctParts f.correctRaw ≠ [])
    (hm : ∀ k ∈ (correctParts f.correctRaw).map matchkey,
      ∃ o ∈ optionsOf f, matchkey o = k) :
    ∃ o ∈ (shuffle (optionsOf f).enum).map Prod.snd,
      matchkey o ∈ (correctParts f.correctRaw).map matchkey := by
  obtain ⟨p0, hp0⟩ := List.exists_mem_of_ne_nil _ hp
  obtain ⟨o, ho, hko⟩ := hm (matchkey p0) (List.mem_map_of_mem _ hp0)
  exact ⟨o, (shuffled_perm_options hperm).mem_iff.mpr ho,
    hko ▸ List.mem_map_of_mem _ hp0⟩

/-- C1: for canonical fields with a non-empty question, at least two non-empty
options, a non-empty correct-answer field all of whose pipe-split parts are
non-empty after trimming, and every correct-part matching key present among
the option matching keys, the classifier produces a multiple-choice card whose
correct option texts are, as a set, exactly the non-empty options whose
matching key lies in the correct-part key set — a set that does not depend on
the shuffle permutation. -/
theorem classify_correct_texts (shuffle : List (Nat × Str) → List (Nat × Str))
    (f : CanonicalFields)
    (hperm : (shuffle (optionsOf f).enum).Perm (optionsOf f).enum)
    (hq : f.question.isEmpty = false)
    (h2 : 2 ≤ (optionsOf f).length)
    (_hcr : f.correctRaw.isEmpty = false)
    (hparts : ∀ p ∈ splitOnPipe f.correctRaw, (pyStrip p).isEmpty = false)
    (hm : ∀ k ∈ correctKeys f, ∃ o ∈ optionsOf f, matchkey o = k) :
    ∃ so ls ts, classifyFields shuffle f = .multi f.question so ls ts ∧
      ∀ t : Str, t ∈ ts ↔ (t ∈ optionsOf f ∧ matchkey t ∈ correctKeys f) := by
  simp only [correctKeys] at hm ⊢
  have hsp : splitOnPipe f.correctRaw ≠ [] := by
    unfold splitOnPipe segsOn
    exact List.cons_ne_nil _ _
  have hcp : correctParts f.correctRaw = (splitOnPipe f.correctRaw).map pyStrip := by
    unfold correctParts
    apply List.filter_eq_self.mpr
    intro x hx
    rw [List.mem_map] at hx
    obtain ⟨p, hpmem, rfl⟩ := hx
    simp [hparts p hpmem]
  have hp : correctParts f.correctRaw ≠ [] := by
    rw [hcp]
    simpa using hsp
  have h := classifyFields_mc shuffle f hq h2 hp hm hperm
  refine ⟨_, _, _, h, fun t => ?_⟩
  rw [List.mem_filter]
  constructor
  · rintro ⟨hmem, hdec⟩
    exact ⟨(shuffled_perm_options hperm).mem_iff.mp hmem, of_decide_eq_true hdec⟩
  · rintro ⟨hmem, hk⟩
    exact ⟨(shuffled_perm_options hperm).mem_iff.mpr hmem, decide_eq_true hk⟩

/-- Witness for `classify_correct_texts`: the spec's first example with the
reversing shuffle. -/
theorem classify_correct_texts_witness :
    ∃ so ls ts,
      classifyFields (fun l => l.reverse)
        ⟨("2+2?").data, ("3").data, ("4").data, ("5").data, ("6").data, ("4").data⟩ =
        .multi (("2+2?").data) so ls ts ∧
      ∀ t : Str, t ∈ ts ↔
        (t ∈ optionsOf ⟨("2+2?").data, ("3").data, ("4").data, ("5").data, ("6").data,
            ("4").data⟩ ∧
         matchkey t ∈ correctKeys ⟨("2+2?").data, ("3").data, ("4").data, ("5").data,
            ("6").data, ("4").data⟩) :=
  classify_correct_texts (fun l => l.reverse)
    ⟨("2+2?").data, ("3").data, ("4").data, ("5").data, ("6").data, ("4").data⟩
    (List.reverse_perm _) (by decide) (by decide) (by decide) (by decide) (by decide)

/-- C4: the defensive post-shuffle re-check is unreachable.  If every
correct-part key occurs among the option keys (the pre-shuffle check passes)
and there is at least one non-empty correct part, then for every shuffle
permutation some shuffled option's matching key lies in the correct-key set
and the classifier returns a card, so the post-shuffle branch rejecting with
correct_answer_not_found is never taken. -/
theorem postshuffle_check_unreachable (shuffle : List (Nat × Str) → List (Nat × Str))
    (f : CanonicalFields)
    (hperm : (shuffle (optionsOf f).enum).Perm (optionsOf f).enum)
    (hq : f.question.isEmpty = false)
    (h2 : 2 ≤ (optionsOf f).length)
    (hp : correctParts f.correctRaw ≠ [])
    (hm : ∀ k ∈ correctKeys f, ∃ o ∈ optionsOf f, matchkey o = k) :
    (∃ o ∈ (shuffle (optionsOf f).enum).map Prod.snd, matchkey o ∈ correctKeys f) ∧
    (∃ so ls ts, classifyFields shuffle f = .multi f.question so ls ts ∧ ls ≠ []) ∧
    classifyFields shuffle f ≠ .reject .correct_answer_not_found := by
  simp only [correctKeys] at hm ⊢
  have h := classifyFields_mc shuffle f hq h2 hp hm hperm
  obtain ⟨o, ho, hk⟩ := exists_correct_in_shuffled hperm hp hm
  have hts : ((shuffle (optionsOf f).enum).map Prod.snd).filter
      (fun t => decide (matchkey t ∈ (correctParts f.correctRaw).map matchkey)) ≠ [] :=
    List.ne_nil_of_mem (List.mem_filter.mpr ⟨ho, decide_eq_true hk⟩)
  have hls : (((shuffle (optionsOf f).enum).enum.filter
      (fun x => decide (matchkey x.2.2 ∈ (correctParts f.correctRaw).map matchkey))).map
      (fun x => letterAt x.1)) ≠ [] := by
    rw [Ne, List.map_eq_nil_iff]
    intro h0
    apply hts
    rw [← filter_enum_map_snd, h0, List.map_nil]
  refine ⟨⟨o, ho, hk⟩, ⟨_, _, _, h, hls⟩, ?_⟩
  rw [h]
  exact RowOutcome.noConfusion

/-- Witness for `postshuffle_check_unreachable`: both options correct, with
the reversing shuffle. -/
theorem postshuffle_check_unreachable_witness :
    (∃ o ∈ ((fun l : List (Nat × Str) => l.reverse)
        (optionsOf ⟨("q").data, ("A").data, ("B").data, [], [], ("A|B").data⟩).enum).map
          Prod.snd,
      matchkey o ∈ correctKeys ⟨("q").data, ("A").data, ("B").data, [], [],
        ("A|B").data⟩) ∧
    (∃ so ls ts, classifyFields (fun l => l.reverse)
        ⟨("q").data, ("A").data, ("B").data, [], [], ("A|B").data⟩ =
        .multi (("q").data) so ls ts ∧ ls ≠ []) ∧
    classifyFields (fun l => l.reverse)
        ⟨("q").data, ("A").data, ("B").data, [], [], ("A|B").data⟩ ≠
      .reject .correct_answer_not_found :=
  postshuffle_check_unreachable (fun l => l.reverse)
    ⟨("q").data, ("A").data, ("B").data, [], [], ("A|B").data⟩
    (List.reverse_perm _) (by decide) (by decide) (by decide) (by decide)

/-- C8: because exactly four option fields exist, a row has at most four
non-empty options, so every display letter assigned during classification is
one of A, B, C, D and the uppercase-letter indexing stays within the 26-letter
alphabet: the spec's undefined behaviour beyond 26 options is unreachable. -/
theorem letters_in_bounds (shuffle : List (Nat × Str) → List (Nat × Str))
    (f : CanonicalFields)
    (hperm : (shuffle (optionsOf f).enum).Perm (optionsOf f).enum) :
    (optionsOf f).length ≤ 4 ∧
    ∀ q so ls ts, classifyFields shuffle f = .multi q so ls ts →
      so.length ≤ 4 ∧ so.length ≤ asciiUppercase.length ∧
      (∀ i < so.length, letterAt i ∈ [('A' : Char), 'B', 'C', 'D']) ∧
      ∀ c ∈ ls, c ∈ [('A' : Char), 'B', 'C', 'D'] := by
  have h4 : (optionsOf f).length ≤ 4 := List.length_filter_le _ _
  refine ⟨h4, fun q so ls ts h => ?_⟩
  obtain ⟨-, hso, hls, -⟩ := classifyFields_multi_inv h
  have hlen : so.length ≤ 4 := by
    rw [hso, List.length_map, hperm.length_eq, List.enum_length]
    exact h4
  refine ⟨hlen, le_trans hlen (by decide),
    fun i hi => (by decide : ∀ j, j < 4 → letterAt j ∈ [('A' : Char), 'B', 'C', 'D']) i
      (lt_of_lt_of_le hi hlen), fun c hc => ?_⟩
  rw [hls, List.mem_map] at hc
  obtain ⟨x, hx, rfl⟩ := hc
  have hx1 : x ∈ (shuffle (optionsOf f).enum).enum := List.mem_of_mem_filter hx
  have hlt : x.1 < (shuffle (optionsOf f).enum).length := by
    have := enum_fst_lt (l := shuffle (optionsOf f).enum) (i := x.1) (x := x.2)
    exact this hx1
  rw [hperm.length_eq, List.enum_length] at hlt
  have hlt4 : x.1 < 4 := lt_of_lt_of_le hlt h4
  exact (by decide : ∀ j, j < 4 → letterAt j ∈ [('A' : Char), 'B', 'C', 'D']) x.1 hlt4

/-- Witness for `letters_in_bounds`: the four-option example with the
reversing shuffle. -/
theorem letters_in_bounds_witness :
    (optionsOf ⟨("2+2?").data, ("3").data, ("4").data, ("5").data, ("6").data,
        ("4").data⟩).length ≤ 4 ∧
    ∀ q so ls ts,
      classifyFields (fun l => l.reverse)
        ⟨("2+2?").data, ("3").data, ("4").data, ("5").data, ("6").data, ("4").data⟩ =
        .multi q so ls ts →
      so.length ≤ 4 ∧ so.length ≤ asciiUppercase.length ∧
      (∀ i < so.length, letterAt i ∈ [('A' : Char), 'B', 'C', 'D']) ∧
      ∀ c ∈ ls, c ∈ [('A' : Char), 'B', 'C', 'D'] :=
  letters_in_bounds (fun l => l.reverse)
    ⟨("2+2?").data, ("3").data, ("4").data, ("5").data, ("6").data, ("4").data⟩
    (List.reverse_perm _)

/-- C9: for every accepted multiple-choice row and shuffle permutation, the
displayed option list is a permutation — equal as a multiset — of the
non-empty option texts collected from fields A–D: each text occurs in the
front exactly as often as in the input; the shuffle adds and loses nothing. -/
theorem shuffled_options_perm (shuffle : List (Nat × Str) → List (Nat × Str))
    (f : CanonicalFields)
    (hperm : (shuffle (optionsOf f).enum).Perm (optionsOf f).enum)
    (q : Str) (so : List Str) (ls : List Char) (ts : List Str)
    (h : classifyFields shuffle f = .multi q so ls ts) :
    so.Perm (optionsOf f) ∧ ∀ t : Str, so.count t = (optionsOf f).count t := by
  obtain ⟨-, hso, -, -⟩ := classifyFields_multi_inv h
  have hsp : so.Perm (optionsOf f) := by
    rw [hso]
    exact shuffled_perm_options hperm
  exact ⟨hsp, fun t => count_eq_of_perm hsp t⟩

/-- Witness for `shuffled_options_perm` at the four-option example with the
reversing shuffle. -/
theorem shuffled_options_perm_witness :
    (([("6").data, ("5").data, ("4").data, ("3").data] : List Str)).Perm
      (optionsOf ⟨("2+2?").data, ("3").data, ("4").data, ("5").data, ("6").data,
        ("4").data⟩) ∧
    ∀ t : Str, (([("6").data, ("5").data, ("4").data, ("3").data] : List Str)).count t =
      (optionsOf ⟨("2+2?").data, ("3").data, ("4").data, ("5").data, ("6").data,
        ("4").data⟩).count t :=
  shuffled_options_perm (fun l => l.reverse)
    ⟨("2+2?").data, ("3").data, ("4").data, ("5").data, ("6").data, ("4").data⟩
    (List.reverse_perm _) (("2+2?").data)
    [("6").data, ("5").data, ("4").data, ("3").data] ['C'] [("4").data] (by decide)

/-- C10: when several non-empty option fields hold texts with the same
matching key and some correct-answer part carries that key, every duplicate
occurrence is flagged: the card's back carries one display letter per
occurrence (as many letters as texts) and repeats each such text once per
occurrence of it among the options. -/
theorem duplicates_all_flagged (shuffle : List (Nat × Str) → List (Nat × Str))
    (f : CanonicalFields)
    (hperm : (shuffle (optionsOf f).enum).Perm (optionsOf f).enum)
    (q : Str) (so : List Str) (ls : List Char) (ts : List Str)
    (h : classifyFields shuffle f = .multi q so ls ts) :
    ls.length = ts.length ∧
    ∀ t : Str, matchkey t ∈ correctKeys f → ts.count t = (optionsOf f).count t := by
  obtain ⟨-, -, hls, hts⟩ := classifyFields_multi_inv h
  constructor
  · rw [hls, hts, List.length_map, List.length_map]
  · intro t ht
    simp only [correctKeys] at ht
    rw [hts, filter_enum_map_snd, List.count_filter (by exact decide_eq_true ht)]
    exact count_eq_of_perm (shuffled_perm_options hperm) t

/-- Witness for `duplicates_all_flagged`: two option fields holding
whitespace-variants of the same text, both flagged correct. -/
theorem duplicates_all_flagged_witness :
    (['A', 'B'] : List Char).length =
      ([("du plicate").data, ("du  plicate").data] : List Str).length ∧
    ∀ t : Str,
      matchkey t ∈ correctKeys ⟨("q").data, ("du plicate").data, ("du  plicate").data,
          ("other").data, [], ("du plicate").data⟩ →
      (([("du plicate").data, ("du  plicate").data] : List Str)).count t =
        (optionsOf ⟨("q").data, ("du plicate").data, ("du  plicate").data,
          ("other").data, [], ("du plicate").data⟩).count t :=
  duplicates_all_flagged (fun l => l)
    ⟨("q").data, ("du plicate").data, ("du  plicate").data, ("other").data, [],
      ("du plicate").data⟩
    (List.Perm.refl _) (("q").data)
    [("du plicate").data, ("du  plicate").data, ("other").data] ['A', 'B']
    [("du plicate").data, ("du  plicate").data] (by decide)

end CsvAnki

